import Mathlib

/-!
Shallow embedding of the version-detection and update-classification engine
of the GOG update checker (source: `gog_api_gui.py`).  Strings are modelled
as `List Char`; every Python string operation used by the engine is
translated to an executable Lean function on `List Char`.
-/

set_option autoImplicit false

namespace GogCheck

/-- Strings of the embedded program. -/
abbrev Str := List Char

/-- Python `str.lower()` (ASCII range, which is all the engine uses). -/
def lowerS (s : Str) : Str := s.map Char.toLower

/-- One character of `0`-`9`. -/
def isDigitC (c : Char) : Bool := c.isDigit

/-- Python `str.isdigit()`: nonempty and all digits. -/
def pyIsDigit (s : Str) : Bool := !s.isEmpty && s.all isDigitC

/-- A GOG build id per the code's repeated inline test:
`s.isdigit() and len(s) >= 8`. -/
def isBuildId (s : Str) : Bool := pyIsDigit s && decide (8 ≤ s.length)

/-- `leadsWith pat s` is Python `s.startswith(pat)`. -/
def leadsWith : Str → Str → Bool
  | [], _ => true
  | _ :: _, [] => false
  | a :: as, b :: bs => a == b && leadsWith as bs

/-- Python `s.endswith(pat)`. -/
def endsWithL (pat s : Str) : Bool := leadsWith pat.reverse s.reverse

/-- `hasSub hay needle` is Python `needle in hay` (contiguous substring). -/
def hasSub : Str → Str → Bool
  | [], needle => leadsWith needle []
  | c :: t, needle => leadsWith needle (c :: t) || hasSub t needle

/-- Python `s.strip(chars)`: drop characters of `cs` from both ends. -/
def dropEnds (cs : Str) (s : Str) : Str :=
  ((s.dropWhile (fun c => cs.contains c)).reverse.dropWhile
    (fun c => cs.contains c)).reverse

/-- The ASCII whitespace characters of Python's default `strip()` / regex `\s`. -/
def wsChars : Str := [' ', '\t', '\n', '\r', '\x0B', '\x0C']

/-- Whitespace test used by `pyStripWs` and the regex `\s` class. -/
def isWsC (c : Char) : Bool := wsChars.contains c

/-- Python `s.strip()` with no argument. -/
def pyStripWs (s : Str) : Str := dropEnds wsChars s

/-- Python `s.split(sep)` for a single-character separator: keeps empty
pieces, `"".split(".") == [""]`. -/
def pySplit (sep : Char) : Str → List Str
  | [] => [[]]
  | c :: cs =>
    match pySplit sep cs with
    | [] => [[]]
    | h :: t => if c == sep then [] :: h :: t else (c :: h) :: t

/-- Python `'.'.join(parts)`. -/
def joinDots : List Str → Str
  | [] => []
  | [p] => p
  | p :: q :: r => p ++ '.' :: joinDots (q :: r)

/-- Numeric value of a digit character. -/
def digitVal (c : Char) : Nat := c.toNat - 48

/-- Tail of Python `int()` digit parsing: digits with single underscores
allowed only between digits. -/
def parseDigitsAux : Nat → Str → Option Nat
  | acc, [] => some acc
  | acc, c :: cs =>
    if isDigitC c then parseDigitsAux (acc * 10 + digitVal c) cs
    else if c == '_' then
      match cs with
      | c2 :: cs2 =>
        if isDigitC c2 then parseDigitsAux (acc * 10 + digitVal c2) cs2 else none
      | [] => none
    else none

/-- Python `int()` digit-sequence parsing (after sign): must start with a
digit, underscores only between digits. -/
def parseDigits : Str → Option Nat
  | [] => none
  | c :: cs => if isDigitC c then parseDigitsAux (digitVal c) cs else none

/-- Python `int(s)` on a string: strips whitespace, optional single sign,
then a digit sequence; `none` models `ValueError`. -/
def pyInt (s : Str) : Option Int :=
  match pyStripWs s with
  | '+' :: r => (parseDigits r).map (fun n => (n : Int))
  | '-' :: r => (parseDigits r).map (fun n => -(n : Int))
  | r => (parseDigits r).map (fun n => (n : Int))

/-- `[int(p) for p in parts]` with `ValueError` modelled as `none`. -/
def pyIntList : List Str → Option (List Int)
  | [] => some []
  | p :: ps =>
    match pyInt p, pyIntList ps with
    | some n, some ns => some (n :: ns)
    | _, _ => none

/-- `int(s)` of an all-digit string (used where the code has already
checked `isdigit()`). -/
def digitsVal (s : Str) : Nat := s.foldl (fun a c => a * 10 + digitVal c) 0

/-- `_is_valid_version` (both copies in the source are identical): split on
`.`; fail on 0 or more than 5 segments, a non-`int()`-parsable segment, or
a segment value above 9999. -/
def isValidVersion (s : Str) : Bool :=
  if s.isEmpty then false
  else
    let parts := pySplit '.' s
    if 5 < parts.length ∨ parts.length < 1 then false
    else
      match pyIntList parts with
      | none => false
      | some ns => !(ns.any (fun n => 9999 < n))

/-- Drop up to `n` leading `"0"` parts (used to mirror the source's
`while len(parts) > 2 and parts[-1] == '0': parts.pop()`, working on the
reversed list with budget `len - 2`). -/
def dropLeadZeroParts : Nat → List Str → List Str
  | 0, l => l
  | _ + 1, [] => []
  | n + 1, p :: ps => if p == ['0'] then dropLeadZeroParts n ps else p :: ps

/-- The trailing-zero-popping loop of `_clean_version_string`:
pop trailing `"0"` parts while more than two parts remain. -/
def popZeroTail (parts : List Str) : List Str :=
  (dropLeadZeroParts (parts.length - 2) parts.reverse).reverse

/-- The prefix list of `_clean_version_string`, in source order. -/
def versionTags : List Str :=
  ["v".data, "ver".data, "version".data, "rel".data, "release".data]

/-- The prefix-stripping loop of `_clean_version_string`: the first
list entry that `lower().startswith(...)` matches is removed, then
`.strip('.: ')`, then `break`. -/
def stripKnownTag (s : Str) : Str :=
  match versionTags.find? (fun p => leadsWith p (lowerS s)) with
  | some p => dropEnds ['.', ':', ' '] (s.drop p.length)
  | none => s

/-- `_clean_version_string` / `_clean_version_string_thread` (identical in
the source): strip, remove a known prefix, pop trailing `.0` parts beyond
two components, validate. -/
def cleanVersion (s : Str) : Option Str :=
  if s.isEmpty then none
  else
    let t := stripKnownTag (pyStripWs s)
    let cv := joinDots (popZeroTail (pySplit '.' t))
    if isValidVersion cv then some cv else none

/-- The result of `get_latest_version_info` as consumed by the classifier:
either a dict containing `'error'`, or a dict with `latest_version` and
`source` (every non-error dict the source builds carries both keys). -/
inductive LookupRes where
  | err (msg : Str)
  | ok (latest source : Str)
deriving DecidableEq

/-- The classification block of `UpdateCheckThread.run` (lines 746-815):
given `installed_version` at classification time and the lookup result,
returns the final `(update_status, latest_version)` of the record. -/
def classify (installed : Str) (info : LookupRes) : Str × Str :=
  match info with
  | .err _ => ("Not in Database".data, "Unknown".data)
  | .ok latest source =>
    if installed = "Unknown".data then
      ("Cannot Check - No Installed Version".data, latest)
    else if latest = "Unknown".data then
      ("Cannot Check - No Latest Version".data, latest)
    else if source = "local_detection".data ∨ source = "local_fallback".data then
      if installed = latest then
        ((if source = "local_detection".data then "DLC - Base Game Reference".data
          else "Local Reference Only".data), latest)
      else
        ((if source = "local_detection".data then "DLC - Base Game Reference".data
          else "Local Reference Only".data), installed)
    else if installed = latest then ("Up to Date".data, latest)
    else if pyIsDigit installed = true ∧ pyIsDigit latest = true ∧
            8 ≤ installed.length ∧ 8 ≤ latest.length then
      if digitsVal installed < digitsVal latest then ("Update Available".data, latest)
      else if digitsVal latest < digitsVal installed then
        ("Newer Version Installed".data, latest)
      else ("Up to Date".data, latest)
    else ("Different Version".data, latest)

/-- The DLC keyword list of `get_latest_version_info`
(`any(dlc_keyword in game_name.lower() for dlc_keyword in [...])`). -/
def dlcKeywords : List Str :=
  [" - ".data, ": ".data, " dlc".data, " expansion".data, " pack".data]

/-- The DLC test of `get_latest_version_info`. -/
def isDlcName (n : Str) : Bool :=
  dlcKeywords.any (fun kw => hasSub (lowerS n) kw)

/-- `game_name.split(separator)[0]`: the part of `s` before the first
occurrence of `sep` (or all of `s` when `sep` does not occur). -/
def splitHead (sep : Str) : Str → Str
  | [] => []
  | c :: cs => if leadsWith sep (c :: cs) = true then [] else c :: splitHead sep cs

/-- The base-game-name loop of `get_latest_version_info`: the first of
`' - '`, `': '` that occurs in the (original-case) name is split on;
otherwise the name is kept. -/
def baseGameName (n : Str) : Str :=
  if hasSub n " - ".data = true then splitHead " - ".data n
  else if hasSub n ": ".data = true then splitHead ": ".data n
  else n

/-- A discovered game record; `path` stands in for the rest of the dict
carried through deduplication. -/
structure GameRec where
  name : Str
  path : Str
deriving DecidableEq, Inhabited

/-- The dedup key: `game.get('name', '').lower()`. -/
def keyOf (g : GameRec) : Str := lowerS g.name

/-- One iteration of the dedup loop of `find_gog_games`: insert into the
(insertion-ordered) dict iff the lowercased name is nonempty and unseen. -/
def dedupStep (acc : List (Str × GameRec)) (g : GameRec) : List (Str × GameRec) :=
  if keyOf g ≠ [] ∧ ∀ pr ∈ acc, pr.1 ≠ keyOf g then acc ++ [(keyOf g, g)] else acc

/-- `find_gog_games`' combine-and-deduplicate step:
`list({name.lower(): game for first occurrences}.values())`. -/
def findAllDedup (gs : List GameRec) : List GameRec :=
  (gs.foldl dedupStep []).map (fun pr => pr.2)

/-- Specification-side recursion: the first occurrence of each nonempty
unseen key, in order. Used to reason about `findAllDedup`. -/
def firstOccs (seen : List Str) : List GameRec → List (Str × GameRec)
  | [] => []
  | g :: gs =>
    if keyOf g ≠ [] ∧ keyOf g ∉ seen then (keyOf g, g) :: firstOccs (keyOf g :: seen) gs
    else firstOccs seen gs

/-- An entry of a build's `files` list: only its `os` value (default `''`)
is consulted. -/
structure BuildFile where
  osTag : Str
deriving DecidableEq, Inhabited

/-- One entry of the catalog's `builds` list, with the fields
`try_gogdb_api` / `filter_builds_by_os` consult (`none` = key absent). -/
structure Build where
  idTag : Option Str
  verTag : Option Str
  osTag : Option Str
  platformTag : Option Str
  opSysTag : Option Str
  sysTag : Option Str
  filesTag : Option (List BuildFile)
deriving DecidableEq, Inhabited

/-- `filter_builds_by_os`: the first present field among
`os`, `platform`, `operating_system`, `system`. -/
def firstOsField (b : Build) : Option Str :=
  match b.osTag with
  | some v => some v
  | none =>
    match b.platformTag with
    | some v => some v
    | none =>
      match b.opSysTag with
      | some v => some v
      | none => b.sysTag

/-- `filter_builds_by_os` fallback: the first file entry with a nonempty
lowered `os` value, else `''`. -/
def filesOsOf (b : Build) : Str :=
  match b.filesTag with
  | none => []
  | some fl =>
    match fl.find? (fun fr => !(lowerS fr.osTag).isEmpty) with
    | some fr => lowerS fr.osTag
    | none => []

/-- The resolved `build_os` of `filter_builds_by_os`: the lowered field
value if nonempty, else the `files` fallback; `''` stands for "no OS". -/
def buildOsOf (b : Build) : Str :=
  match firstOsField b with
  | some v => if (lowerS v).isEmpty then filesOsOf b else lowerS v
  | none => filesOsOf b

/-- The variant-tolerant OS match of `filter_builds_by_os`. -/
def osVariantHit (bos target : Str) : Bool :=
  if target = "windows".data then
    ["windows".data, "win".data, "pc".data].any (fun v => hasSub bos v)
  else if target = "osx".data then
    ["osx".data, "mac".data, "macos".data, "darwin".data].any (fun v => hasSub bos v)
  else if target = "linux".data then hasSub bos "linux".data
  else false

/-- A build is kept iff it has a nonempty resolved OS that matches. -/
def buildMatches (target : Str) (b : Build) : Bool :=
  !(buildOsOf b).isEmpty && osVariantHit (buildOsOf b) target

/-- `filter_builds_by_os`. -/
def filterBuildsByOs (builds : List Build) (target : Str) : List Build :=
  builds.filter (buildMatches target)

/-- A product tag: a dict (only its `name` read, default `''`) or a plain
value rendered with `str`. -/
inductive TagItem where
  | obj (nameVal : Str)
  | plain (s : Str)
deriving DecidableEq

/-- A product feature, same shape as `TagItem`. -/
inductive FeatItem where
  | obj (nameVal : Str)
  | plain (s : Str)
deriving DecidableEq

/-- The catalog's `product.json` body as consumed by `try_gogdb_api`. -/
structure ProductData where
  builds : List Build
  verTag : Option Str
  tagsTag : Option (List TagItem)
  featuresTag : Option (List FeatItem)
deriving DecidableEq

/-- Tag names skipped by `extract_tags_from_data`. -/
def tagSkips : List Str := ["windows".data, "english".data, "offline".data]

/-- `tag.get('name', '') if dict else str(tag)`. -/
def resolveTag : TagItem → Str
  | .obj n => n
  | .plain s => s

/-- The relevant-tags loop of `extract_tags_from_data` (on `tag_list[:5]`):
keep nonempty names containing no skip word, stop at 3. -/
def pickRelevant : List TagItem → List Str → List Str
  | [], acc => acc
  | t :: ts, acc =>
    let nm := resolveTag t
    if !nm.isEmpty && !(tagSkips.any (fun sk => hasSub (lowerS nm) sk)) then
      let acc2 := acc ++ [nm]
      if 3 ≤ acc2.length then acc2 else pickRelevant ts acc2
    else pickRelevant ts acc

/-- The features loop of `extract_tags_from_data` (on `features[:2]`). -/
def featAdds : List FeatItem → List Str
  | [] => []
  | f :: fs =>
    match f with
    | .obj n =>
      if !n.isEmpty && decide (n.length < 15) then ('⭐' :: n) :: featAdds fs
      else featAdds fs
    | .plain s =>
      if decide (s.length < 15) then ('⭐' :: s) :: featAdds fs
      else featAdds fs

/-- `sep.join(parts)`. -/
def joinSep (sep : Str) : List Str → Str
  | [] => []
  | [x] => x
  | x :: y :: r => x ++ sep ++ joinSep sep (y :: r)

/-- `extract_tags_from_data`: up to 3 relevant tags plus up to 2 short
features, joined with `' • '`, else the `'🎮'` placeholder. -/
def extractTags (d : ProductData) : Str :=
  let base := match d.tagsTag with
    | some l => pickRelevant (l.take 5) []
    | none => []
  let withFeats := base ++ (match d.featuresTag with
    | some fl => featAdds (fl.take 2)
    | none => [])
  if withFeats.isEmpty then "🎮".data
  else joinSep " • ".data (withFeats.take 3)

/-- The dict returned by the success branch of `try_gogdb_api`. -/
structure GogdbResult where
  latest_version : Str
  changelog : Str
  build_id : Str
  tags : Str
  source : Str
  base_game : Str
  readable_version : Option Str
deriving DecidableEq

/-- Lines 1242-1248 of the source: the last OS-filtered build, else the
last build overall. -/
def chooseBuild (b : Build) (bs : List Build) (target : Str) : Build :=
  match (filterBuildsByOs (b :: bs) target).getLast? with
  | some x => x
  | none => (b :: bs).getLast (List.cons_ne_nil b bs)

/-- The `builds`-present branch of `try_gogdb_api`, as a function of the
parsed body, the request parameters, the detected OS, and the value
returned by `fetch_changelog_from_gogdb` (`none` = no changelog fetched;
`some` carries the already-wrapped release-notes text). Returns `none`
when `builds` is empty (the code falls through and returns `None`). -/
def tryGogdbApi (d : ProductData) (gogId baseGame gameName : Str) (isDlc : Bool)
    (target : Str) (fetched : Option Str) : Option GogdbResult :=
  match d.builds with
  | [] => none
  | b :: bs =>
    let latestBuild := chooseBuild b bs target
    let version := latestBuild.verTag.getD "Unknown".data
    let buildId := latestBuild.idTag.getD []
    let readable1 : Option Str :=
      if !version.isEmpty && !(version == "Unknown".data) &&
         !(pyIsDigit version && decide (8 ≤ version.length)) then some version
      else none
    let readable : Option Str :=
      match d.verTag with
      | some pv =>
        if !pv.isEmpty && !(pyIsDigit pv && decide (8 ≤ pv.length)) then some pv
        else readable1
      | none => readable1
    let latestVersion :=
      if !buildId.isEmpty && pyIsDigit buildId && decide (8 ≤ buildId.length) then buildId
      else gogId
    let changelog := match fetched with
      | some cl => cl
      | none =>
        let c1 := "Build ID: ".data ++ buildId ++
          (if !version.isEmpty && !(version == "Unknown".data) then
            "\nVersion: ".data ++ version
           else [])
        let bos := latestBuild.osTag.getD "Unknown".data
        let c2 := c1 ++
          (if !(bos == "Unknown".data) then "\nPlatform: ".data ++ bos else [])
        c2 ++ (if isDlc then
          "\n\nNote: This DLC/Expansion shares the build ID with the base game '".data
            ++ baseGame ++ "'".data
         else [])
    some { latest_version := latestVersion, changelog := changelog,
           build_id := buildId, tags := extractTags d, source := "gogdb.org".data,
           base_game := if isDlc then baseGame else gameName,
           readable_version := readable }

/-- Concrete build carrying a windows OS tag (for the C6 scenarios). -/
def bWin : Build := ⟨some "12345678".data, none, some "windows".data, none, none, none, none⟩

/-- Concrete build identical to `bWin` except for a linux OS tag. -/
def bLin : Build := ⟨some "12345678".data, none, some "linux".data, none, none, none, none⟩

/-- Catalog body whose only build is `bWin`. -/
def prodWin : ProductData := ⟨[bWin], none, none, none⟩

/-- Catalog body whose only build is `bLin`. -/
def prodLin : ProductData := ⟨[bLin], none, none, none⟩

/-! ### Regex matchers

Each `re` pattern the detection code uses is embedded as an executable
matcher on `List Char`.  A matcher tries to match at the head of its input
(`re.search`/`re.findall` retry at successive offsets) and returns the
capture group together with the input remaining after the whole match.
The character classes involved (digits, `\s`, `[:=]`, `[^"]`, literals)
are pairwise disjoint from their follow sets, so the greedy quantifiers
are deterministic; the only genuine alternative (`\.?`) is tried
dot-first exactly as the regex engine does. -/

/-- Case-insensitive literal match (`lit` given lowercase, mirroring
`re.IGNORECASE`); returns the rest of the original input. -/
def matchLitCI (lit : Str) (s : Str) : Option Str :=
  if lowerS (s.take lit.length) = lit then some (s.drop lit.length) else none

/-- Match one given character. -/
def matchCh (c : Char) : Str → Option Str
  | x :: xs => if x = c then some xs else none
  | [] => none

/-- Match one character of a class. -/
def matchChOf (cs : Str) : Str → Option Str
  | x :: xs => if cs.contains x then some xs else none
  | [] => none

/-- Matcher for `"LIT"\s*:\s*"([^"]+)"` at the head of the input. -/
def quotedFieldAt (lit : Str) (s : Str) : Option (Str × Str) :=
  match matchLitCI ('"' :: lit ++ ['"']) s with
  | none => none
  | some r1 =>
    match matchCh ':' (r1.dropWhile isWsC) with
    | none => none
    | some r2 =>
      match matchCh '"' (r2.dropWhile isWsC) with
      | none => none
      | some r3 =>
        let cap := r3.takeWhile (fun c => !(c == '"'))
        match r3.drop cap.length with
        | '"' :: rest => if cap.isEmpty then none else some (cap, rest)
        | _ => none

/-- `re.search`: try the matcher at every offset, leftmost match wins. -/
def searchWith (m : Str → Option (Str × Str)) : Str → Option Str
  | [] =>
    match m [] with
    | some x => some x.1
    | none => none
  | c :: cs =>
    match m (c :: cs) with
    | some x => some x.1
    | none => searchWith m cs

/-- `re.search(r'"buildId"\s*:\s*"([^"]+)"', content, re.IGNORECASE)`. -/
def searchBuildId (content : Str) : Option Str :=
  searchWith (quotedFieldAt "buildid".data) content

/-- Matcher for the filename pattern `goggame-(\d+)\.info`. -/
def gogIdAt (s : Str) : Option (Str × Str) :=
  match matchLitCI "goggame-".data s with
  | none => none
  | some r1 =>
    let ds := r1.takeWhile isDigitC
    if ds.isEmpty then none
    else
      match matchLitCI ".info".data (r1.drop ds.length) with
      | none => none
      | some r2 => some (ds, r2)

/-- `re.search(r'goggame-(\d+)\.info', file.lower())`. -/
def searchGogId (s : Str) : Option Str := searchWith gogIdAt s

/-- Greedy `(?:\.[0-9]+)*`: number of groups, matched text, rest.
Fuel-driven (call with the input length); each iteration consumes at
least two characters. -/
def takeDotGroupsF : Nat → Str → Nat × Str × Str
  | 0, s => (0, [], s)
  | fuel + 1, s =>
    match s with
    | '.' :: rest =>
      let ds := rest.takeWhile isDigitC
      if ds.isEmpty then (0, [], s)
      else
        let res := takeDotGroupsF fuel (rest.drop ds.length)
        (res.1 + 1, '.' :: ds ++ res.2.1, res.2.2)
    | _ => (0, [], s)

/-- Greedy `[0-9]+(?:\.[0-9]+){minG,}` at the head of the input. -/
def dottedNumAt (minG : Nat) (s : Str) : Option (Str × Str) :=
  let d1 := s.takeWhile isDigitC
  if d1.isEmpty then none
  else
    let r1 := s.drop d1.length
    let res := takeDotGroupsF r1.length r1
    if minG ≤ res.1 then some (d1 ++ res.2.1, res.2.2) else none

/-- `([0-9]+\.[0-9]+...\.[0-9]+)` with exactly `k` components. -/
def exactCompsAt : Nat → Str → Option (Str × Str)
  | 0, _ => none
  | 1, s =>
    let ds := s.takeWhile isDigitC
    if ds.isEmpty then none else some (ds, s.drop ds.length)
  | k + 2, s =>
    let ds := s.takeWhile isDigitC
    if ds.isEmpty then none
    else
      match s.drop ds.length with
      | '.' :: r2 =>
        match exactCompsAt (k + 1) r2 with
        | none => none
        | some pr => some (ds ++ '.' :: pr.1, pr.2)
      | _ => none

/-- `re.findall`: scan left to right, resuming after each match.  Fuel
(call with the input length) bounds the recursion; every pattern used
here matches at least one character. -/
def scanAll (m : Str → Option (Str × Str)) : Nat → Str → List Str
  | 0, _ => []
  | _ + 1, [] => []
  | fuel + 1, c :: cs =>
    match m (c :: cs) with
    | some (cap, rest) => cap :: scanAll m fuel rest
    | none => scanAll m fuel cs

/-- `re.findall(pattern, s)` for a head matcher. -/
def findAllM (m : Str → Option (Str × Str)) (s : Str) : List Str :=
  scanAll m s.length s

/-- Matcher for `LIT[:\s=]+([0-9]+(?:\.[0-9]+)+)`. -/
def litClassNumAt (lit : Str) (s : Str) : Option (Str × Str) :=
  match matchLitCI lit s with
  | none => none
  | some r1 =>
    let run := r1.takeWhile (fun c => c == ':' || c == '=' || isWsC c)
    if run.isEmpty then none
    else dottedNumAt 1 (r1.drop run.length)

/-- Matcher for `LIT\s*[:=]\s*([0-9]+(?:\.[0-9]+){minG,})`. -/
def sepColonEqNumAt (lit : Str) (minG : Nat) (s : Str) : Option (Str × Str) :=
  match matchLitCI lit s with
  | none => none
  | some r1 =>
    match matchChOf [':', '='] (r1.dropWhile isWsC) with
    | none => none
    | some r2 => dottedNumAt minG (r2.dropWhile isWsC)

/-- Matcher for `LIT\.?\s*([0-9]+(?:\.[0-9]+)+)` (the `v`/`ver` patterns);
the optional dot is tried consumed-first, as the regex engine does. -/
def vOptDotNumAt (lit : Str) (s : Str) : Option (Str × Str) :=
  match matchLitCI lit s with
  | none => none
  | some r1 =>
    match (match matchCh '.' r1 with
           | none => none
           | some r2 => dottedNumAt 1 (r2.dropWhile isWsC)) with
    | some x => some x
    | none => dottedNumAt 1 (r1.dropWhile isWsC)

/-- Matcher for `L1\s*L2\s*[:=]\s*([0-9]+(?:\.[0-9]+)+)`
(the `game version` / `client version` / `app version` patterns). -/
def twoLitNumAt (l1 l2 : Str) (s : Str) : Option (Str × Str) :=
  match matchLitCI l1 s with
  | none => none
  | some r1 =>
    match matchLitCI l2 (r1.dropWhile isWsC) with
    | none => none
    | some r2 =>
      match matchChOf [':', '='] (r2.dropWhile isWsC) with
      | none => none
      | some r3 => dottedNumAt 1 (r3.dropWhile isWsC)

/-- Regex word character (`\w`, ASCII). -/
def isWordC (c : Char) : Bool := c.isAlphanum || c == '_'

/-- Matcher body for `([0-9]{1,2}\.[0-9]{1,3}\.[0-9]{1,4})\b`: bounded
digit runs; a longer run cannot be split because the shorter prefix would
be followed by a digit, failing `\.` (or `\b`). -/
def triadAt (s : Str) : Option (Str × Str) :=
  let r1 := s.takeWhile isDigitC
  if r1.isEmpty || decide (2 < r1.length) then none
  else
    match s.drop r1.length with
    | '.' :: s2 =>
      let r2 := s2.takeWhile isDigitC
      if r2.isEmpty || decide (3 < r2.length) then none
      else
        match s2.drop r2.length with
        | '.' :: s3 =>
          let r3 := s3.takeWhile isDigitC
          if r3.isEmpty || decide (4 < r3.length) then none
          else
            match s3.drop r3.length with
            | [] => some (r1 ++ '.' :: r2 ++ '.' :: r3, [])
            | c :: rest =>
              if isWordC c then none
              else some (r1 ++ '.' :: r2 ++ '.' :: r3, c :: rest)
        | _ => none
    | _ => none

/-- `re.findall` for the `\b...\b` pattern: the scan carries the previous
character so the leading word boundary can be checked. -/
def scanTriads : Nat → Option Char → Str → List Str
  | 0, _, _ => []
  | _ + 1, _, [] => []
  | fuel + 1, prev, c :: cs =>
    let boundaryOk := match prev with
      | none => true
      | some pc => !isWordC pc
    if boundaryOk then
      match triadAt (c :: cs) with
      | some (cap, rest) => cap :: scanTriads fuel (some (cap.getLastD '0')) rest
      | none => scanTriads fuel (some c) cs
    else scanTriads fuel (some c) cs

/-- `re.findall(r'\b([0-9]{1,2}\.[0-9]{1,3}\.[0-9]{1,4})\b', s)`. -/
def findTriads (s : Str) : List Str := scanTriads s.length none s

/-- The candidate matches of `_extract_version_from_text`'s pattern list,
in pattern order then match order (the code runs `re.findall` per pattern
on the lowercased text). -/
def textCandidates (tl : Str) : List Str :=
  findAllM (sepColonEqNumAt "version".data 1) tl ++
  findAllM (vOptDotNumAt "v".data) tl ++
  findAllM (vOptDotNumAt "ver".data) tl ++
  findAllM (exactCompsAt 4) tl ++
  findAllM (exactCompsAt 3) tl ++
  findAllM (exactCompsAt 2) tl ++
  findAllM (sepColonEqNumAt "build".data 0) tl ++
  findAllM (sepColonEqNumAt "release".data 0) tl ++
  findAllM (sepColonEqNumAt "rev".data 0) tl ++
  findAllM (sepColonEqNumAt "revision".data 0) tl ++
  findAllM (twoLitNumAt "game".data "version".data) tl ++
  findAllM (twoLitNumAt "client".data "version".data) tl ++
  findAllM (twoLitNumAt "app".data "version".data) tl ++
  findTriads tl

/-- The accept loop of `_extract_version_from_text`: strip, validate, and
apply the two-component magnitude guard (`major > 20 or minor > 999`). -/
def acceptTextCand : List Str → Option Str
  | [] => none
  | cand :: vs =>
    let w := pyStripWs cand
    if isValidVersion w = true then
      let parts := pySplit '.' w
      if parts.length = 2 then
        match pyInt (parts.getD 0 []), pyInt (parts.getD 1 []) with
        | some major, some minor =>
          if 20 < major ∨ 999 < minor then acceptTextCand vs else some w
        | _, _ => acceptTextCand vs
      else some w
    else acceptTextCand vs

/-- `_extract_version_from_text` (the `UpdateCheckThread` copy). -/
def extractTextVersion (text : Str) : Option Str :=
  if text.isEmpty then none
  else acceptTextCand (textCandidates (lowerS text))

/-- The candidate matches of `detect_readable_version_from_gog_files`'
metadata `version_patterns` list (run with `re.IGNORECASE` on the raw
content). -/
def metaCandidates (c : Str) : List Str :=
  findAllM (quotedFieldAt "version".data) c ++
  findAllM (quotedFieldAt "versionname".data) c ++
  findAllM (quotedFieldAt "productversion".data) c ++
  findAllM (litClassNumAt "version".data) c ++
  findAllM (exactCompsAt 3) c

/-- `match.strip('"\'')`. -/
def stripQuotePair (s : Str) : Str := dropEnds ['"', '\''] s

/-- The metadata accept loop: first candidate that, stripped of quotes, is
nonempty, is not a build id, and passes validation. -/
def firstMetaOk : List Str → Option Str
  | [] => none
  | cand :: vs =>
    let w := stripQuotePair cand
    if w ≠ [] ∧ ¬(pyIsDigit w = true ∧ 8 ≤ w.length) ∧ isValidVersion w = true
    then some w
    else firstMetaOk vs

/-! ### Filesystem model and the two detection functions -/

/-- One directory entry: its name, its readable content (`none` models a
read that raises), and — for executables — the platform's version-info
answers (`winVer` the four words of `GetFileVersionInfo`, `psVer` the
PowerShell stdout on success). -/
structure FileEntry where
  fname : Str
  content : Option Str
  winVer : Option (Nat × Nat × Nat × Nat)
  psVer : Option Str
deriving DecidableEq, Inhabited

/-- A directory: its `os.listdir` result with per-file data. -/
structure DirInfo where
  files : List FileEntry
deriving DecidableEq, Inhabited

/-- `[f for f in listdir if f.lower().startswith('goggame-') and
f.lower().endswith('.info')]`. -/
def infoFilesOf (d : DirInfo) : List FileEntry :=
  d.files.filter (fun f =>
    leadsWith "goggame-".data (lowerS f.fname) &&
    endsWithL ".info".data (lowerS f.fname))

/-- The executable-name exclusions of the readable-version path. -/
def exeSkips : List Str :=
  ["unins".data, "setup".data, "install".data, "crash".data,
   "error".data, "redist".data]

/-- `[f for f in listdir if f.endswith('.exe') and not
f.lower().startswith((...))]`. -/
def exeFilesOf (d : DirInfo) : List FileEntry :=
  d.files.filter (fun f =>
    endsWithL ".exe".data f.fname &&
    !(exeSkips.any (fun t => leadsWith t (lowerS f.fname))))

/-- `os.path.exists(join(dir, n))` plus `open(...)`: the directory entry
named `n`. -/
def findFileIn (d : DirInfo) (n : Str) : Option FileEntry :=
  d.files.find? (fun f => f.fname == n)

/-- Decimal digits of a number (`win32api.HIWORD(ms)` etc. are rendered
through an f-string). -/
def natDigits (n : Nat) : Str := Nat.toDigits 10 n

/-- The PowerShell branch of `_get_exe_version`: nonempty stripped stdout,
not `0.0.0.0`, cleaned and validated. -/
def psCleanStep (f : FileEntry) : Option Str :=
  match f.psVer with
  | none => none
  | some out =>
    let t := pyStripWs out
    if t ≠ [] then
      if ¬(t = "0.0.0.0".data) then
        match cleanVersion t with
        | some cv => if isValidVersion cv = true then some cv else none
        | none => none
      else none
    else none

/-- `_get_exe_version`: the `win32api` four-word version with the trailing
`.0` pop (falling through to PowerShell when it is `0.0` or unavailable),
else the PowerShell branch. -/
def getExeVersion (f : FileEntry) : Option Str :=
  match f.winVer with
  | some (a, b, c, d) =>
    let cv := joinDots (popZeroTail [natDigits a, natDigits b, natDigits c, natDigits d])
    if ¬(cv = "0.0".data) then some cv else psCleanStep f
  | none => psCleanStep f

/-- The metadata block of `detect_readable_version_from_gog_files`: first
`.info` file, first 1000 chars, first accepted pattern match. -/
def metaStep (d : DirInfo) : Option Str :=
  match infoFilesOf d with
  | [] => none
  | f :: _ =>
    match f.content with
    | none => none
    | some c => firstMetaOk (metaCandidates (c.take 1000))

/-- The executable block: version info of the first surviving `.exe`. -/
def exeStep (d : DirInfo) : Option Str :=
  match exeFilesOf d with
  | [] => none
  | f :: _ => getExeVersion f

/-- The plain-text fallback loop over `['version.txt', 'VERSION']`:
read 500 chars, extract, validate, else next file. -/
def tryTxtFiles (d : DirInfo) : List Str → Option Str
  | [] => none
  | n :: ns =>
    match findFileIn d n with
    | none => tryTxtFiles d ns
    | some f =>
      match f.content with
      | none => tryTxtFiles d ns
      | some c =>
        match extractTextVersion (c.take 500) with
        | none => tryTxtFiles d ns
        | some w =>
          if isValidVersion w = true then some w else tryTxtFiles d ns

/-- The full fallback chain of `detect_readable_version_from_gog_files`
for an existing directory. -/
def readableCompute (d : DirInfo) : Option Str :=
  match metaStep d with
  | some v => some v
  | none =>
    match exeStep d with
    | some v => some v
    | none => tryTxtFiles d ["version.txt".data, "VERSION".data]

/-- The body of `detect_version_from_gog_files` for an existing directory:
first `.info` file, catalog id from its name, build id from its content,
with the catalog id as fallback. -/
def buildIdCompute (d : DirInfo) : Option Str :=
  match infoFilesOf d with
  | [] => none
  | f :: _ =>
    match searchGogId (lowerS f.fname) with
    | none => none
    | some gid =>
      match f.content with
      | none => some gid
      | some c =>
        match searchBuildId (c.take 500) with
        | none => some gid
        | some cap =>
          let bid := stripQuotePair cap
          if bid ≠ [] ∧ pyIsDigit bid = true ∧ 8 ≤ bid.length then some bid
          else some gid

/-- The worker's two per-path caches (`_build_id_cache`, `_version_cache`),
insertion at the front of an association list. -/
structure Caches where
  buildC : List (Str × Option Str)
  verC : List (Str × Option Str)
deriving DecidableEq

/-- The caches before the first detection call. -/
def emptyCaches : Caches := ⟨[], []⟩

/-- Association-list lookup (`install_path in cache` plus the read). -/
def lookupKey (m : List (Str × Option Str)) (k : Str) : Option (Option Str) :=
  match m with
  | [] => none
  | (a, v) :: rest => if a = k then some v else lookupKey rest k

/-- `detect_version_from_gog_files` with explicit state: result, new
caches, and whether detection work (directory listing / file read) was
performed — `false` on the empty-path / missing-path early exits and on a
cache hit. -/
def detectBuildId (fs : Str → Option DirInfo) (st : Caches) (p : Str) :
    Option Str × Caches × Bool :=
  if p = [] then (none, st, false)
  else match fs p with
  | none => (none, st, false)
  | some d =>
    match lookupKey st.buildC p with
    | some v => (v, st, false)
    | none =>
      let r := buildIdCompute d
      (r, { st with buildC := (p, r) :: st.buildC }, true)

/-- `detect_readable_version_from_gog_files` with explicit state, same
conventions as `detectBuildId`. -/
def detectReadable (fs : Str → Option DirInfo) (st : Caches) (p : Str) :
    Option Str × Caches × Bool :=
  if p = [] then (none, st, false)
  else match fs p with
  | none => (none, st, false)
  | some d =>
    match lookupKey st.verC p with
    | some v => (v, st, false)
    | none =>
      let r := readableCompute d
      (r, { st with verC := (p, r) :: st.verC }, true)

/-- Directory for the C9 counterexample: one executable whose
PowerShell-reported version string is the 8-digit leading-zero `00001234`. -/
def c9Dir : DirInfo := ⟨[⟨"game.exe".data, none, none, some "00001234".data⟩]⟩

/-- Filesystem for the C9 counterexample. -/
def c9Fs : Str → Option DirInfo :=
  fun q => if q = "p".data then some c9Dir else none

/-- Directory for the C9 witness (distinct path and value). -/
def c9wDir : DirInfo := ⟨[⟨"play.exe".data, none, none, some "00009999".data⟩]⟩

/-- Filesystem for the C9 witness. -/
def c9wFs : Str → Option DirInfo :=
  fun q => if q = "q".data then some c9wDir else none

/-- Filesystem for the C10 witness: one empty directory. -/
def c10Fs : Str → Option DirInfo :=
  fun q => if q = "w".data then some ⟨[]⟩ else none

/-! ### Lemmas about `pySplit` and `pyIntList` -/

theorem pySplit_ne_nil (sep : Char) (s : Str) : pySplit sep s ≠ [] := by
  cases s with
  | nil => intro h; exact List.noConfusion h
  | cons c cs =>
    simp only [pySplit]
    cases pySplit sep cs with
    | nil => intro h; exact List.noConfusion h
    | cons h t =>
      dsimp only
      split
      · intro h2; exact List.noConfusion h2
      · intro h2; exact List.noConfusion h2

theorem pyIntList_none_iff (ps : List Str) :
    pyIntList ps = none ↔ ∃ p ∈ ps, pyInt p = none := by
  induction ps with
  | nil => simp [pyIntList]
  | cons p ps ih =>
    simp only [pyIntList]
    cases hp : pyInt p with
    | none =>
      constructor
      · intro _; exact ⟨p, List.mem_cons_self p ps, hp⟩
      · intro _
        cases pyIntList ps with
        | none => rfl
        | some ns => rfl
    | some n =>
      cases hq : pyIntList ps with
      | none =>
        constructor
        · intro _
          rcases ih.mp hq with ⟨q, hq1, hq2⟩
          exact ⟨q, List.mem_cons_of_mem p hq1, hq2⟩
        · intro _; rfl
      | some ns =>
        constructor
        · intro h; exact Option.noConfusion h
        · rintro ⟨q, hql, hq2⟩
          exfalso
          rcases List.mem_cons.mp hql with h1 | h1
          · rw [h1] at hq2; rw [hq2] at hp; exact Option.noConfusion hp
          · have h2 := ih.mpr ⟨q, h1, hq2⟩
            rw [hq] at h2; exact Option.noConfusion h2

theorem pyIntList_forall_some (ps : List Str) (ns : List Int)
    (h : pyIntList ps = some ns) : ∀ p ∈ ps, ∃ n, pyInt p = some n := by
  induction ps generalizing ns with
  | nil => simp
  | cons p ps ih =>
    simp only [pyIntList] at h
    cases hp : pyInt p with
    | none => rw [hp] at h; exact Option.noConfusion h
    | some n =>
      rw [hp] at h
      cases hq : pyIntList ps with
      | none => rw [hq] at h; exact Option.noConfusion h
      | some ms =>
        intro q hql
        rcases List.mem_cons.mp hql with hq1 | hq1
        · exact ⟨n, hq1 ▸ hp⟩
        · exact ih ms hq q hq1

theorem pyIntList_big_iff (ps : List Str) (ns : List Int)
    (h : pyIntList ps = some ns) :
    (∃ n ∈ ns, 9999 < n) ↔ ∃ p ∈ ps, ∃ n, pyInt p = some n ∧ 9999 < n := by
  induction ps generalizing ns with
  | nil =>
    simp only [pyIntList, Option.some.injEq] at h
    subst h; simp
  | cons p ps ih =>
    simp only [pyIntList] at h
    cases hp : pyInt p with
    | none => rw [hp] at h; exact Option.noConfusion h
    | some n =>
      rw [hp] at h
      cases hq : pyIntList ps with
      | none => rw [hq] at h; exact Option.noConfusion h
      | some ms =>
        rw [hq] at h
        cases h
        constructor
        · rintro ⟨m, hm, hbig⟩
          rcases List.mem_cons.mp hm with hm1 | hm1
          · exact ⟨p, List.mem_cons_self p ps, n, hp, hm1 ▸ hbig⟩
          · rcases (ih ms hq).mp ⟨m, hm1, hbig⟩ with ⟨q, hq1, m2, hq2, hq3⟩
            exact ⟨q, List.mem_cons_of_mem p hq1, m2, hq2, hq3⟩
        · rintro ⟨q, hql, m, hq2, hq3⟩
          rcases List.mem_cons.mp hql with hq1 | hq1
          · refine ⟨n, List.mem_cons_self n ms, ?_⟩
            rw [hq1] at hq2; rw [hp] at hq2; cases hq2; exact hq3
          · rcases (ih ms hq).mpr ⟨q, hq1, m, hq2, hq3⟩ with ⟨m2, hm1, hm2⟩
            exact ⟨m2, List.mem_cons_of_mem n hm1, hm2⟩

/-! ### Claim theorems: classifier and version-string utilities -/

/-- C1 (counterexample): when the lookup result is an error dict, a record
whose `installed_version` is `"Unknown"` is classified `Not in Database`,
not `Cannot Check - No Installed Version` — rule 1 does not win on a
lookup error, contradicting the claim. -/
theorem C1_counterexample :
    (classify "Unknown".data (.err "No version information available".data)).1 =
      "Not in Database".data ∧
    (classify "Unknown".data (.err "No version information available".data)).1 ≠
      "Cannot Check - No Installed Version".data := by
  constructor
  · rfl
  · decide

/-- C1 (amended): for every non-error lookup result (remote success or
either local fallback), `installed_version = "Unknown"` at classification
time yields `Cannot Check - No Installed Version`; on a lookup error the
status is `Not in Database` (and `latest_version` is reset to `"Unknown"`)
regardless of `installed_version`. -/
theorem C1_unknown_installed :
    (∀ installed latest source : Str, installed = "Unknown".data →
      (classify installed (.ok latest source)).1 =
        "Cannot Check - No Installed Version".data) ∧
    (∀ installed msg : Str,
      classify installed (.err msg) = ("Not in Database".data, "Unknown".data)) := by
  constructor
  · intro installed latest source h
    subst h
    simp [classify]
  · intro installed msg
    rfl

/-- C1 (witness). -/
theorem C1_unknown_installed_witness :
    (classify "Unknown".data
      (.ok "1.0".data "local_fallback".data)).1 =
      "Cannot Check - No Installed Version".data :=
  C1_unknown_installed.1 "Unknown".data "1.0".data "local_fallback".data rfl

/-- C2: for two unequal build ids reaching the numeric-comparison rule with
the remote catalog source, a smaller installed integer value yields
`Update Available` and a larger one yields `Newer Version Installed`. -/
theorem C2_build_id_comparison :
    ∀ i l : Str, isBuildId i = true → isBuildId l = true → i ≠ l →
      (digitsVal i < digitsVal l →
        classify i (.ok l "gogdb.org".data) = ("Update Available".data, l)) ∧
      (digitsVal l < digitsVal i →
        classify i (.ok l "gogdb.org".data) = ("Newer Version Installed".data, l)) := by
  intro i l hi hl hne
  have hdi : pyIsDigit i = true ∧ 8 ≤ i.length := by
    simpa [isBuildId, Bool.and_eq_true] using hi
  have hdl : pyIsDigit l = true ∧ 8 ≤ l.length := by
    simpa [isBuildId, Bool.and_eq_true] using hl
  have hiU : i ≠ "Unknown".data := by
    intro h; rw [h] at hi; exact absurd hi (by decide)
  have hlU : l ≠ "Unknown".data := by
    intro h; rw [h] at hl; exact absurd hl (by decide)
  have hsrc : ¬("gogdb.org".data = "local_detection".data ∨
      "gogdb.org".data = "local_fallback".data) := by decide
  constructor
  · intro hlt
    simp only [classify]
    rw [if_neg hiU, if_neg hlU, if_neg hsrc, if_neg hne,
      if_pos ⟨hdi.1, hdl.1, hdi.2, hdl.2⟩, if_pos hlt]
  · intro hlt
    simp only [classify]
    rw [if_neg hiU, if_neg hlU, if_neg hsrc, if_neg hne,
      if_pos ⟨hdi.1, hdl.1, hdi.2, hdl.2⟩, if_neg (Nat.lt_asymm hlt), if_pos hlt]

/-- C2 (witness): the spec's concrete scenario. -/
theorem C2_build_id_comparison_witness :
    classify "49183726".data (.ok "49183999".data "gogdb.org".data) =
      ("Update Available".data, "49183999".data) :=
  (C2_build_id_comparison "49183726".data "49183999".data
    (by decide) (by decide) (by decide)).1 (by decide)

/-- C3: for a local-only source (`local_detection` or `local_fallback`)
with neither value `"Unknown"`, the final `latest_version` always equals
`installed_version`, and when the two values differ the status is
`DLC - Base Game Reference` for `local_detection` and
`Local Reference Only` for `local_fallback`. -/
theorem C3_local_overwrite :
    ∀ i l src : Str,
      (src = "local_detection".data ∨ src = "local_fallback".data) →
      i ≠ "Unknown".data → l ≠ "Unknown".data →
      (classify i (.ok l src)).2 = i ∧
      (i ≠ l → (classify i (.ok l src)).1 =
        (if src = "local_detection".data then "DLC - Base Game Reference".data
         else "Local Reference Only".data)) := by
  intro i l src hsrc hi hl
  by_cases he : i = l
  · subst he
    refine ⟨?_, fun hne => absurd rfl hne⟩
    simp only [classify]
    rw [if_neg hi, if_pos hsrc]
    split <;> rfl
  · have h1 : classify i (.ok l src) =
        ((if src = "local_detection".data then "DLC - Base Game Reference".data
          else "Local Reference Only".data), i) := by
      simp only [classify]
      rw [if_neg hi, if_neg hl, if_pos hsrc, if_neg he]
    exact ⟨by rw [h1], fun _ => by rw [h1]⟩

/-- C3 (witness): the spec's fallback-tier-2 scenario, with the status and
the overwritten `latest_version`. -/
theorem C3_local_overwrite_witness :
    (classify "12345678".data (.ok "87654321".data "local_fallback".data)).1 =
      "Local Reference Only".data ∧
    (classify "12345678".data (.ok "87654321".data "local_fallback".data)).2 =
      "12345678".data := by
  have h := C3_local_overwrite "12345678".data "87654321".data
    "local_fallback".data (Or.inr rfl) (by decide) (by decide)
  exact ⟨(h.2 (by decide)).trans (by decide), h.1⟩

/-- C4: evaluating the source's `_clean_version_string` at the claimed
round-trip input. The prefix loop tests `'v'` before `'version'` and stops
at the first hit, so only the letter `v` is stripped from
`"Version: 1.2.0.0"`; the leftover `"ersion: 1.2"` fails validation and the
function returns `None`, not `"1.2"` as the claim states. -/
theorem C4_code_eval :
    cleanVersion "Version: 1.2.0.0".data = none ∧
    cleanVersion "Version: 1.2.0.0".data ≠ some "1.2".data := by
  constructor
  · rfl
  · decide

/-- C8: `_is_valid_version` returns `false` exactly when the dot-split has
more than 5 segments, some segment fails `int()` parsing, or some segment's
integer value exceeds 9999 — and returns `true` otherwise. -/
theorem C8_is_valid_version :
    ∀ s : Str, isValidVersion s = false ↔
      (5 < (pySplit '.' s).length ∨
       ∃ p ∈ pySplit '.' s,
         (pyInt p = none ∨ ∃ n : Int, pyInt p = some n ∧ 9999 < n)) := by
  intro s
  by_cases hs : s = []
  · subst hs
    constructor
    · intro _
      right
      exact ⟨[], by simp [pySplit], Or.inl rfl⟩
    · intro _; rfl
  · have hne : s.isEmpty = false := by
      cases s with
      | nil => exact absurd rfl hs
      | cons a t => rfl
    simp only [isValidVersion, hne, Bool.false_eq_true, if_false]
    by_cases hlen : 5 < (pySplit '.' s).length ∨ (pySplit '.' s).length < 1
    · rw [if_pos hlen]
      have hlen2 : 5 < (pySplit '.' s).length := by
        rcases hlen with h | h
        · exact h
        · exfalso
          have hnn := pySplit_ne_nil '.' s
          cases hsp : pySplit '.' s with
          | nil => exact hnn hsp
          | cons a t => rw [hsp] at h; simp at h
      simp [hlen2]
    · rw [if_neg hlen]
      cases hint : pyIntList (pySplit '.' s) with
      | none =>
        constructor
        · intro _
          rcases (pyIntList_none_iff _).mp hint with ⟨p, hp1, hp2⟩
          exact Or.inr ⟨p, hp1, Or.inl hp2⟩
        · intro _; rfl
      | some ns =>
        dsimp only
        have hforall := pyIntList_forall_some _ ns hint
        have hbig := pyIntList_big_iff _ ns hint
        constructor
        · intro hfalse
          have hany : ns.any (fun n => 9999 < n) = true := by
            cases hany2 : ns.any (fun n => 9999 < n) with
            | true => rfl
            | false => rw [hany2] at hfalse; exact absurd hfalse (by decide)
          rcases List.any_eq_true.mp hany with ⟨n, hn1, hn2⟩
          rcases hbig.mp ⟨n, hn1, by simpa using hn2⟩ with ⟨p, hp1, m, hp2, hp3⟩
          exact Or.inr ⟨p, hp1, Or.inr ⟨m, hp2, hp3⟩⟩
        · rintro (h | ⟨p, hp1, hp2 | ⟨n, hn1, hn2⟩⟩)
          · exact absurd (Or.inl h) hlen
          · rcases hforall p hp1 with ⟨n, hn⟩
            rw [hn] at hp2; exact Option.noConfusion hp2
          · have hany : ns.any (fun n => 9999 < n) = true :=
              List.any_eq_true.mpr (by
                rcases hbig.mpr ⟨p, hp1, n, hn1, hn2⟩ with ⟨m, hm1, hm2⟩
                exact ⟨m, hm1, by simpa using hm2⟩)
            rw [hany]
            rfl

/-! ### Substring lemmas -/

theorem leadsWith_iff (pat : Str) : ∀ s : Str,
    leadsWith pat s = true ↔ ∃ q, s = pat ++ q := by
  induction pat with
  | nil => intro s; simp [leadsWith]
  | cons a as ih =>
    intro s
    cases s with
    | nil =>
      simp only [leadsWith]
      constructor
      · intro h; exact Bool.noConfusion h
      · rintro ⟨q, hq⟩; exact List.noConfusion hq
    | cons b bs =>
      simp only [leadsWith, Bool.and_eq_true, beq_iff_eq]
      constructor
      · rintro ⟨h1, h2⟩
        rcases (ih bs).mp h2 with ⟨q, hq⟩
        exact ⟨q, by rw [h1, hq]; rfl⟩
      · rintro ⟨q, hq⟩
        rcases List.cons.inj hq with ⟨h1, h2⟩
        exact ⟨h1.symm, (ih bs).mpr ⟨q, h2⟩⟩

theorem hasSub_iff (hay needle : Str) :
    hasSub hay needle = true ↔ ∃ p q, hay = p ++ needle ++ q := by
  induction hay with
  | nil =>
    simp only [hasSub]
    rw [leadsWith_iff]
    constructor
    · rintro ⟨q, hq⟩; exact ⟨[], q, hq⟩
    · rintro ⟨p, q, hpq⟩
      cases p with
      | nil => exact ⟨q, hpq⟩
      | cons x xs => exact absurd hpq (by intro h; exact List.noConfusion h)
  | cons c t ih =>
    simp only [hasSub, Bool.or_eq_true]
    constructor
    · rintro (h | h)
      · rcases (leadsWith_iff needle _).mp h with ⟨q, hq⟩
        exact ⟨[], q, hq⟩
      · rcases ih.mp h with ⟨p, q, hpq⟩
        exact ⟨c :: p, q, by rw [hpq]; rfl⟩
    · rintro ⟨p, q, hpq⟩
      cases p with
      | nil => exact Or.inl ((leadsWith_iff needle _).mpr ⟨q, hpq⟩)
      | cons x xs =>
        rcases List.cons.inj hpq with ⟨_, h2⟩
        exact Or.inr (ih.mpr ⟨xs, q, h2⟩)

theorem splitHead_heads (sep : Str) : ∀ n : Str, ∃ r, n = splitHead sep n ++ r := by
  intro n
  induction n with
  | nil => exact ⟨[], rfl⟩
  | cons c t ih =>
    by_cases hl : leadsWith sep (c :: t) = true
    · exact ⟨c :: t, by simp only [splitHead]; rw [if_pos hl]; rfl⟩
    · rcases ih with ⟨r, hr⟩
      refine ⟨r, ?_⟩
      simp only [splitHead]
      rw [if_neg hl]
      rw [List.cons_append, ← hr]

theorem splitHead_app (sep : Str) : ∀ n : Str, hasSub n sep = true →
    ∃ rest, n = splitHead sep n ++ sep ++ rest := by
  intro n
  induction n with
  | nil =>
    intro h
    simp only [hasSub] at h
    rcases (leadsWith_iff sep []).mp h with ⟨q, hq⟩
    refine ⟨q, ?_⟩
    simp only [splitHead]
    rw [List.nil_append, ← hq]
  | cons c t ih =>
    intro h
    by_cases hl : leadsWith sep (c :: t) = true
    · rcases (leadsWith_iff sep _).mp hl with ⟨q, hq⟩
      refine ⟨q, ?_⟩
      simp only [splitHead]
      rw [if_pos hl, List.nil_append, ← hq]
    · have h2 : hasSub t sep = true := by
        simp only [hasSub, Bool.or_eq_true] at h
        rcases h with h | h
        · exact absurd h hl
        · exact h
      rcases ih h2 with ⟨r, hr⟩
      refine ⟨r, ?_⟩
      simp only [splitHead]
      rw [if_neg hl, List.cons_append, List.cons_append, ← hr]

theorem splitHead_clean (sep : Str) (hsep : sep ≠ []) :
    ∀ n : Str, hasSub (splitHead sep n) sep = false := by
  intro n
  induction n with
  | nil =>
    simp only [splitHead, hasSub]
    cases sep with
    | nil => exact absurd rfl hsep
    | cons a as => rfl
  | cons c t ih =>
    by_cases hl : leadsWith sep (c :: t) = true
    · simp only [splitHead]
      rw [if_pos hl]
      simp only [hasSub]
      cases sep with
      | nil => exact absurd rfl hsep
      | cons a as => rfl
    · simp only [splitHead]
      rw [if_neg hl]
      simp only [hasSub, Bool.or_eq_true]
      cases hq : leadsWith sep (c :: splitHead sep t) with
      | false => simpa using ih
      | true =>
        exfalso
        apply hl
        rcases (leadsWith_iff sep _).mp hq with ⟨q, hq2⟩
        rcases splitHead_heads sep t with ⟨r, hr⟩
        refine (leadsWith_iff sep _).mpr ⟨q ++ r, ?_⟩
        calc c :: t = c :: (splitHead sep t ++ r) := by rw [← hr]
      _ = (c :: splitHead sep t) ++ r := rfl
      _ = (sep ++ q) ++ r := by rw [hq2]
      _ = sep ++ (q ++ r) := by rw [List.append_assoc]

/-! ### Lemmas for deduplication -/

theorem firstOccs_congr : ∀ (gs : List GameRec) (s1 s2 : List Str),
    (∀ x, x ∈ s1 ↔ x ∈ s2) → firstOccs s1 gs = firstOccs s2 gs := by
  intro gs
  induction gs with
  | nil => intro s1 s2 _; rfl
  | cons g gs ih =>
    intro s1 s2 h
    simp only [firstOccs]
    by_cases hc : keyOf g ≠ [] ∧ keyOf g ∉ s1
    · rw [if_pos hc, if_pos ⟨hc.1, fun hm => hc.2 ((h _).mpr hm)⟩,
        ih (keyOf g :: s1) (keyOf g :: s2) (by intro x; simp [h x])]
    · rw [if_neg hc,
        if_neg (by rintro ⟨h1, h2⟩; exact hc ⟨h1, fun hm => h2 ((h _).mp hm)⟩),
        ih s1 s2 h]

theorem foldl_dedup (gs : List GameRec) : ∀ acc,
    gs.foldl dedupStep acc = acc ++ firstOccs (acc.map (fun pr => pr.1)) gs := by
  induction gs with
  | nil => intro acc; simp [firstOccs]
  | cons g gs ih =>
    intro acc
    simp only [List.foldl_cons]
    by_cases hc : keyOf g ≠ [] ∧ ∀ pr ∈ acc, pr.1 ≠ keyOf g
    · have hstep : dedupStep acc g = acc ++ [(keyOf g, g)] := by
        simp only [dedupStep]; rw [if_pos hc]
      have hNotIn : keyOf g ∉ acc.map (fun pr => pr.1) := by
        intro hm
        rcases List.mem_map.mp hm with ⟨pr, hpr1, hpr2⟩
        exact hc.2 pr hpr1 hpr2
      rw [hstep, ih]
      conv_rhs => rw [firstOccs]
      rw [if_pos ⟨hc.1, hNotIn⟩]
      have hseen : ((acc ++ [(keyOf g, g)]).map (fun pr => pr.1)) =
          acc.map (fun pr => pr.1) ++ [keyOf g] := by simp
      rw [hseen, firstOccs_congr gs (acc.map (fun pr => pr.1) ++ [keyOf g])
        (keyOf g :: acc.map (fun pr => pr.1)) (by intro x; simp [or_comm])]
      simp
    · have hstep : dedupStep acc g = acc := by
        simp only [dedupStep]; rw [if_neg hc]
      rw [hstep, ih]
      congr 1
      conv_rhs => rw [firstOccs]
      rw [if_neg (by
        rintro ⟨h1, h2⟩
        exact hc ⟨h1, fun pr hpr hpk => h2 (List.mem_map.mpr ⟨pr, hpr, hpk⟩)⟩)]

theorem firstOccs_sound : ∀ (gs : List GameRec) (seen : List Str),
    (∀ pr ∈ firstOccs seen gs, pr.1 = keyOf pr.2 ∧ pr.1 ≠ [] ∧ pr.1 ∉ seen) ∧
    ((firstOccs seen gs).map (fun pr => pr.1)).Nodup := by
  intro gs
  induction gs with
  | nil =>
    intro seen
    exact ⟨fun pr h => absurd h (List.not_mem_nil pr), by simp [firstOccs]⟩
  | cons g gs ih =>
    intro seen
    simp only [firstOccs]
    by_cases hc : keyOf g ≠ [] ∧ keyOf g ∉ seen
    · rw [if_pos hc]
      obtain ⟨ihA, ihB⟩ := ih (keyOf g :: seen)
      constructor
      · intro pr hpr
        rcases List.mem_cons.mp hpr with h1 | h1
        · rw [h1]; exact ⟨rfl, hc.1, hc.2⟩
        · obtain ⟨ha, hb, hcc⟩ := ihA pr h1
          exact ⟨ha, hb, fun hm => hcc (List.mem_cons_of_mem _ hm)⟩
      · simp only [List.map_cons]
        refine List.nodup_cons.mpr ⟨?_, ihB⟩
        intro hm
        rcases List.mem_map.mp hm with ⟨pr, hpr1, hpr2⟩
        obtain ⟨_, _, hcc⟩ := ihA pr hpr1
        rw [hpr2] at hcc
        exact hcc (List.mem_cons_self _ _)
    · rw [if_neg hc]; exact ih seen

theorem firstOccs_first : ∀ (gs : List GameRec) (seen : List Str) (pr : Str × GameRec),
    pr ∈ firstOccs seen gs →
    ∃ l1 l2, gs = l1 ++ pr.2 :: l2 ∧ ∀ x ∈ l1, keyOf x ≠ pr.1 := by
  intro gs
  induction gs with
  | nil => intro seen pr h; exact absurd h (List.not_mem_nil pr)
  | cons g gs ih =>
    intro seen pr hpr
    simp only [firstOccs] at hpr
    by_cases hc : keyOf g ≠ [] ∧ keyOf g ∉ seen
    · rw [if_pos hc] at hpr
      rcases List.mem_cons.mp hpr with h1 | h1
      · refine ⟨[], gs, ?_, fun x hx => absurd hx (List.not_mem_nil x)⟩
        rw [h1]
        rfl
      · rcases ih (keyOf g :: seen) pr h1 with ⟨l1, l2, hdec, hne⟩
        have hprseen := ((firstOccs_sound gs (keyOf g :: seen)).1 pr h1).2.2
        refine ⟨g :: l1, l2, by rw [hdec]; rfl, ?_⟩
        intro x hx
        rcases List.mem_cons.mp hx with h2 | h2
        · rw [h2]
          intro heq
          exact hprseen (heq ▸ List.mem_cons_self _ _)
        · exact hne x h2
    · rw [if_neg hc] at hpr
      rcases ih seen pr hpr with ⟨l1, l2, hdec, hne⟩
      have hpr1 := (firstOccs_sound gs seen).1 pr hpr
      refine ⟨g :: l1, l2, by rw [hdec]; rfl, ?_⟩
      intro x hx
      rcases List.mem_cons.mp hx with h2 | h2
      · rw [h2]
        intro heq
        exact hc ⟨heq ▸ hpr1.2.1, heq ▸ hpr1.2.2⟩
      · exact hne x h2

theorem firstOccs_cover : ∀ (gs : List GameRec) (seen : List Str) (g : GameRec),
    g ∈ gs → keyOf g ≠ [] → keyOf g ∉ seen →
    ∃ pr ∈ firstOccs seen gs, pr.1 = keyOf g := by
  intro gs
  induction gs with
  | nil => intro seen g h; exact absurd h (List.not_mem_nil g)
  | cons h0 gs ih =>
    intro seen g hg hk hs
    simp only [firstOccs]
    by_cases hc : keyOf h0 ≠ [] ∧ keyOf h0 ∉ seen
    · rw [if_pos hc]
      by_cases hkey : keyOf g = keyOf h0
      · exact ⟨(keyOf h0, h0), List.mem_cons_self _ _, hkey.symm⟩
      · rcases List.mem_cons.mp hg with h1 | h1
        · exact absurd (by rw [h1]) hkey
        · rcases ih (keyOf h0 :: seen) g h1 hk (by
            intro hm
            rcases List.mem_cons.mp hm with hx | hx
            · exact hkey hx
            · exact hs hx) with ⟨pr, hpr1, hpr2⟩
          exact ⟨pr, List.mem_cons_of_mem _ hpr1, hpr2⟩
    · rw [if_neg hc]
      rcases List.mem_cons.mp hg with h1 | h1
      · exact absurd ⟨h1 ▸ hk, h1 ▸ hs⟩ hc
      · exact ih seen g h1 hk hs

/-! ### Claim theorems: DLC heuristic and deduplication -/

/-- C5: a name is classified DLC iff one of the five keyword substrings
occurs (case-insensitively) in it, and the base-game name is the part
before the first `' - '` separator when one occurs, else before the first
`': '` separator, else the whole name. -/
theorem C5_dlc_heuristic (n : Str) :
    (isDlcName n = true ↔ ∃ kw ∈ dlcKeywords, ∃ p q, lowerS n = p ++ kw ++ q) ∧
    (hasSub n " - ".data = true →
      (∃ rest, n = baseGameName n ++ " - ".data ++ rest) ∧
      hasSub (baseGameName n) " - ".data = false) ∧
    (hasSub n " - ".data = false → hasSub n ": ".data = true →
      (∃ rest, n = baseGameName n ++ ": ".data ++ rest) ∧
      hasSub (baseGameName n) ": ".data = false) ∧
    (hasSub n " - ".data = false → hasSub n ": ".data = false →
      baseGameName n = n) := by
  refine ⟨?_, ?_, ?_, ?_⟩
  · constructor
    · intro h
      rcases List.any_eq_true.mp h with ⟨kw, hk1, hk2⟩
      exact ⟨kw, hk1, (hasSub_iff _ _).mp hk2⟩
    · rintro ⟨kw, hk1, hdec⟩
      exact List.any_eq_true.mpr ⟨kw, hk1, (hasSub_iff _ _).mpr hdec⟩
  · intro h1
    have hb : baseGameName n = splitHead " - ".data n := by
      simp only [baseGameName]; rw [if_pos h1]
    rw [hb]
    exact ⟨splitHead_app _ n h1, splitHead_clean _ (by decide) n⟩
  · intro h1 h2
    have hneg : ¬(hasSub n " - ".data = true) := by rw [h1]; decide
    have hb : baseGameName n = splitHead ": ".data n := by
      simp only [baseGameName]; rw [if_neg hneg, if_pos h2]
    rw [hb]
    exact ⟨splitHead_app _ n h2, splitHead_clean _ (by decide) n⟩
  · intro h1 h2
    have hneg1 : ¬(hasSub n " - ".data = true) := by rw [h1]; decide
    have hneg2 : ¬(hasSub n ": ".data = true) := by rw [h2]; decide
    simp only [baseGameName]
    rw [if_neg hneg1, if_neg hneg2]

/-- C5 (witness): the spec scenario for `"Cyberpunk 2077: Phantom Liberty"`. -/
theorem C5_dlc_heuristic_witness :
    isDlcName "Cyberpunk 2077: Phantom Liberty".data = true ∧
    baseGameName "Cyberpunk 2077: Phantom Liberty".data = "Cyberpunk 2077".data := by
  constructor
  · exact (C5_dlc_heuristic "Cyberpunk 2077: Phantom Liberty".data).1.mpr
      ⟨": ".data, by decide, "cyberpunk 2077".data, "phantom liberty".data, by decide⟩
  · decide

/-- C7: after the union (registry first) is deduplicated, the lowercase
keys of the result are pairwise distinct, every retained record is the
first occurrence of its key in the concatenated input, and every input key
is represented. -/
theorem C7_dedup (reg dir : List GameRec)
    (hnames : ∀ g ∈ reg ++ dir, g.name ≠ []) :
    ((findAllDedup (reg ++ dir)).map keyOf).Nodup ∧
    (∀ g ∈ findAllDedup (reg ++ dir), ∃ l1 l2, reg ++ dir = l1 ++ g :: l2 ∧
      ∀ x ∈ l1, keyOf x ≠ keyOf g) ∧
    (∀ g ∈ reg ++ dir, ∃ g2 ∈ findAllDedup (reg ++ dir), keyOf g2 = keyOf g) := by
  have hdd : findAllDedup (reg ++ dir) =
      (firstOccs [] (reg ++ dir)).map (fun pr => pr.2) := by
    simp only [findAllDedup]
    rw [foldl_dedup (reg ++ dir) []]
    simp
  have hsound := firstOccs_sound (reg ++ dir) []
  refine ⟨?_, ?_, ?_⟩
  · rw [hdd, List.map_map]
    have hmaps : ((firstOccs [] (reg ++ dir)).map (keyOf ∘ fun pr => pr.2)) =
        (firstOccs [] (reg ++ dir)).map (fun pr => pr.1) := by
      apply List.map_congr_left
      intro pr hpr
      exact ((hsound.1 pr hpr).1).symm
    rw [hmaps]
    exact hsound.2
  · intro g hg
    rw [hdd] at hg
    rcases List.mem_map.mp hg with ⟨pr, hpr1, hpr2⟩
    rcases firstOccs_first (reg ++ dir) [] pr hpr1 with ⟨l1, l2, hdec, hne⟩
    refine ⟨l1, l2, by rw [hdec, hpr2], ?_⟩
    intro x hx
    have h1 := hne x hx
    have h2 := (hsound.1 pr hpr1).1
    rw [← hpr2, ← h2]
    exact h1
  · intro g hg
    have hk : keyOf g ≠ [] := by
      have h1 := hnames g hg
      cases hn : g.name with
      | nil => exact absurd hn h1
      | cons a t => simp [keyOf, lowerS, hn]
    rcases firstOccs_cover (reg ++ dir) [] g hg hk (List.not_mem_nil _)
      with ⟨pr, hpr1, hpr2⟩
    refine ⟨pr.2, ?_, ?_⟩
    · rw [hdd]; exact List.mem_map.mpr ⟨pr, hpr1, rfl⟩
    · rw [← (hsound.1 pr hpr1).1]
      exact hpr2

/-- C7 (witness): a registry record and a filesystem record with the same
lowercased name collapse to the registry one; keys are distinct. -/
theorem C7_dedup_witness :
    ((findAllDedup ([⟨"Alpha".data, "c:REG".data⟩] ++
      [⟨"alpha".data, "d:DIR".data⟩, ⟨"Beta".data, "d:B".data⟩])).map keyOf).Nodup ∧
    findAllDedup ([⟨"Alpha".data, "c:REG".data⟩] ++
      [⟨"alpha".data, "d:DIR".data⟩, ⟨"Beta".data, "d:B".data⟩]) =
      [⟨"Alpha".data, "c:REG".data⟩, ⟨"Beta".data, "d:B".data⟩] :=
  ⟨(C7_dedup [⟨"Alpha".data, "c:REG".data⟩]
      [⟨"alpha".data, "d:DIR".data⟩, ⟨"Beta".data, "d:B".data⟩] (by decide)).1,
   by decide⟩

/-! ### Claim theorems: catalog build selection -/

/-- C6 (counterexample): two one-build catalog responses, one whose build
matches the caller's OS and one that forces the no-OS-build fallback,
produce identical returned results — the fallback is not flagged anywhere
in the returned result (it is only reported as a log line). -/
theorem C6_counterexample :
    filterBuildsByOs [bLin] "windows".data = [] ∧
    filterBuildsByOs [bWin] "windows".data ≠ [] ∧
    tryGogdbApi prodLin "123".data "G".data "G".data false "windows".data
        (some "relnotes".data) =
      tryGogdbApi prodWin "123".data "G".data "G".data false "windows".data
        (some "relnotes".data) := by
  refine ⟨by decide, by decide, by decide⟩

/-- C6 (amended): for every nonempty builds list, the selected build is
the last element of the OS-filtered list when that list is nonempty, and
the last element of the unfiltered list otherwise (no sorting in either
case); the returned result's `build_id` comes from that selected build —
but the fallback itself is only logged, not recorded in the result. -/
theorem C6_selection :
    ∀ (b : Build) (bs : List Build) (target : Str),
    ((filterBuildsByOs (b :: bs) target ≠ [] →
        (filterBuildsByOs (b :: bs) target).getLast? = some (chooseBuild b bs target)) ∧
     (filterBuildsByOs (b :: bs) target = [] →
        (b :: bs).getLast? = some (chooseBuild b bs target))) ∧
    (∀ (d : ProductData) (gogId bg gn : Str) (dlc : Bool) (fetched : Option Str),
      d.builds = b :: bs →
      ∃ r, tryGogdbApi d gogId bg gn dlc target fetched = some r ∧
        r.build_id = (chooseBuild b bs target).idTag.getD []) := by
  intro b bs target
  constructor
  · constructor
    · intro hne
      simp only [chooseBuild]
      cases hq : (filterBuildsByOs (b :: bs) target).getLast? with
      | none =>
        exfalso
        have hsome := List.getLast?_isSome (l := filterBuildsByOs (b :: bs) target)
        rw [hq] at hsome
        exact absurd (hsome.mpr hne) (by decide)
      | some x => rfl
    · intro hnil
      simp only [chooseBuild]
      rw [hnil]
      exact List.getLast?_eq_getLast _ _
  · intro d gogId bg gn dlc fetched hbuilds
    cases d with
    | mk builds verTag tagsTag featuresTag =>
      simp only at hbuilds
      subst hbuilds
      exact ⟨_, rfl, rfl⟩

/-- C6 (witness): the amended selection applied to the windows scenario. -/
theorem C6_selection_witness :
    ∃ r, tryGogdbApi prodWin "123".data "G".data "G".data false "windows".data
        (some "relnotes".data) = some r ∧
      r.build_id = (chooseBuild bWin [] "windows".data).idTag.getD [] :=
  (C6_selection bWin [] "windows".data).2 prodWin "123".data "G".data "G".data
    false (some "relnotes".data) rfl

/-! ### Digit-string lemmas -/

theorem digit_bounds (c : Char) (h : isDigitC c = true) :
    48 ≤ c.toNat ∧ c.toNat ≤ 57 := by
  simp [isDigitC, Char.isDigit] at h
  exact ⟨h.1, h.2⟩

theorem digit_not_ws (c : Char) (h : isDigitC c = true) : isWsC c = false := by
  cases hw : isWsC c with
  | false => rfl
  | true =>
    exfalso
    have hmem : c ∈ wsChars := by
      simpa [isWsC, List.contains] using hw
    have hb := digit_bounds c h
    simp only [wsChars, List.mem_cons, List.not_mem_nil, or_false] at hmem
    rcases hmem with h1 | h1 | h1 | h1 | h1 | h1 <;> rw [h1] at hb <;>
      exact absurd hb (by decide)

theorem digit_ne_dot (c : Char) (h : isDigitC c = true) : (c == '.') = false := by
  cases hq : c == '.' with
  | false => rfl
  | true =>
    have : c = '.' := by simpa using hq
    rw [this] at h
    exact absurd h (by decide)

theorem dropWhile_all_neg {p : Char → Bool} :
    ∀ s : Str, (∀ c ∈ s, p c = false) → s.dropWhile p = s := by
  intro s h
  cases s with
  | nil => rfl
  | cons c cs =>
    simp only [List.dropWhile_cons]
    rw [h c (List.mem_cons_self c cs)]
    rfl

theorem dropEnds_id (cs : Str) (s : Str)
    (h : ∀ c ∈ s, cs.contains c = false) : dropEnds cs s = s := by
  simp only [dropEnds]
  rw [dropWhile_all_neg s h, dropWhile_all_neg s.reverse
    (fun c hc => h c (List.mem_reverse.mp hc)), List.reverse_reverse]

theorem pyStripWs_digits (v : Str) (h : v.all isDigitC = true) :
    pyStripWs v = v := by
  refine dropEnds_id wsChars v (fun c hc => ?_)
  have hd := List.all_eq_true.mp h c hc
  have hw := digit_not_ws c hd
  simpa [isWsC] using hw

theorem pySplit_no_sep (sep : Char) :
    ∀ s : Str, (∀ c ∈ s, (c == sep) = false) → pySplit sep s = [s] := by
  intro s
  induction s with
  | nil => intro _; rfl
  | cons c cs ih =>
    intro h
    simp only [pySplit]
    rw [ih (fun x hx => h x (List.mem_cons_of_mem c hx))]
    rw [h c (List.mem_cons_self c cs)]
    rfl

theorem parseDigitsAux_digits :
    ∀ (cs : Str) (acc : Nat), (∀ x ∈ cs, isDigitC x = true) →
    parseDigitsAux acc cs = some (cs.foldl (fun a c => a * 10 + digitVal c) acc) := by
  intro cs
  induction cs with
  | nil => intro acc _; rfl
  | cons x xs ih =>
    intro acc h
    have hx := h x (List.mem_cons_self x xs)
    cases xs with
    | nil => simp [parseDigitsAux, hx]
    | cons x2 xs2 =>
      have h2 : parseDigitsAux acc (x :: x2 :: xs2) =
          parseDigitsAux (acc * 10 + digitVal x) (x2 :: xs2) := by
        simp [parseDigitsAux, hx]
      rw [h2, ih (acc * 10 + digitVal x)
        (fun y hy => h y (List.mem_cons_of_mem x hy))]
      rfl

theorem foldl_acc_mul :
    ∀ (l : Str) (acc : Nat),
    l.foldl (fun a c => a * 10 + digitVal c) acc =
      acc * 10 ^ l.length + l.foldl (fun a c => a * 10 + digitVal c) 0 := by
  intro l
  induction l with
  | nil => intro acc; simp
  | cons x xs ih =>
    intro acc
    simp only [List.foldl_cons, List.length_cons]
    rw [ih (acc * 10 + digitVal x), ih (0 * 10 + digitVal x)]
    ring

theorem pyInt_digits (v : Str) (h : pyIsDigit v = true) :
    pyInt v = some ((digitsVal v : Nat) : Int) := by
  obtain ⟨hne, hall⟩ : v.isEmpty = false ∧ v.all isDigitC = true := by
    simpa [pyIsDigit, Bool.and_eq_true] using h
  have hstrip : pyStripWs v = v := pyStripWs_digits v hall
  cases v with
  | nil => exact absurd hne (by decide)
  | cons c cs =>
    have hc : isDigitC c = true :=
      List.all_eq_true.mp hall c (List.mem_cons_self c cs)
    have hcs : ∀ x ∈ cs, isDigitC x = true :=
      fun x hx => List.all_eq_true.mp hall x (List.mem_cons_of_mem c hx)
    have hcp : c ≠ '+' := by
      intro hq; rw [hq] at hc; exact absurd hc (by decide)
    have hcm : c ≠ '-' := by
      intro hq; rw [hq] at hc; exact absurd hc (by decide)
    simp only [pyInt, hstrip]
    split
    · rename_i r heq
      rcases List.cons.inj heq with ⟨h1, _⟩
      exact absurd h1 hcp
    · rename_i r heq
      rcases List.cons.inj heq with ⟨h1, _⟩
      exact absurd h1 hcm
    · have hpd : parseDigits (c :: cs) = parseDigitsAux (digitVal c) cs := by
        simp [parseDigits, hc]
      rw [hpd, parseDigitsAux_digits cs (digitVal c) hcs]
      simp [digitsVal]

theorem digitsVal_lower (c : Char) (cs : Str)
    (hc : isDigitC c = true) (hcs : c ≠ '0') :
    10 ^ cs.length ≤ digitsVal (c :: cs) := by
  have h1 : 1 ≤ digitVal c := by
    have hb := digit_bounds c hc
    have hne : c.toNat ≠ 48 := by
      intro hq
      apply hcs
      have := Char.ofNat_toNat c
      rw [hq] at this
      exact this.symm
    have : 49 ≤ c.toNat := by omega
    simp only [digitVal]
    omega
  simp only [digitsVal, List.foldl_cons]
  rw [foldl_acc_mul cs (0 * 10 + digitVal c)]
  have h2 : 10 ^ cs.length ≤ (0 * 10 + digitVal c) * 10 ^ cs.length := by
    have : 1 * 10 ^ cs.length ≤ (0 * 10 + digitVal c) * 10 ^ cs.length :=
      Nat.mul_le_mul_right _ (by omega)
    omega
  omega

theorem validDigit_head (v : Str) (hv : isValidVersion v = true)
    (hd : pyIsDigit v = true) (hl : 8 ≤ v.length) : v.head? = some '0' := by
  obtain ⟨hne, hall⟩ : v.isEmpty = false ∧ v.all isDigitC = true := by
    simpa [pyIsDigit, Bool.and_eq_true] using hd
  cases v with
  | nil => exact absurd hne (by decide)
  | cons c cs =>
    by_cases hc0 : c = '0'
    · rw [hc0]; rfl
    · exfalso
      have hsplit : pySplit '.' (c :: cs) = [c :: cs] :=
        pySplit_no_sep '.' (c :: cs)
          (fun x hx => digit_ne_dot x (List.all_eq_true.mp hall x hx))
      have hpy : pyInt (c :: cs) = some ((digitsVal (c :: cs) : Nat) : Int) :=
        pyInt_digits (c :: cs) hd
      have hpl : pyIntList [c :: cs] = some [((digitsVal (c :: cs) : Nat) : Int)] := by
        simp [pyIntList, hpy]
      simp only [isValidVersion, hne, Bool.false_eq_true, if_false, hsplit] at hv
      rw [if_neg (by simp)] at hv
      rw [hpl] at hv
      simp only [List.any_cons, List.any_nil, Bool.or_false, Bool.not_eq_true'] at hv
      have hle : (digitsVal (c :: cs) : Int) ≤ 9999 := by
        by_contra hgt
        rw [decide_eq_true (by omega : (9999 : Int) < (digitsVal (c :: cs) : Nat))] at hv
        exact Bool.noConfusion hv
      have hlow := digitsVal_lower c cs
        (List.all_eq_true.mp hall c (List.mem_cons_self c cs)) hc0
      have hcs7 : 7 ≤ cs.length := by
        simp only [List.length_cons] at hl
        omega
      have hbig : 10 ^ 7 ≤ digitsVal (c :: cs) :=
        le_trans (Nat.pow_le_pow_right (by omega) hcs7) hlow
      have : (digitsVal (c :: cs) : Int) ≤ 9999 := hle
      omega

/-! ### Structure of the readable-version fallback chain -/

theorem firstMetaOk_ok : ∀ (l : List Str) (v : Str), firstMetaOk l = some v →
    v ≠ [] ∧ ¬(pyIsDigit v = true ∧ 8 ≤ v.length) ∧ isValidVersion v = true := by
  intro l
  induction l with
  | nil => intro v h; exact Option.noConfusion h
  | cons cand vs ih =>
    intro v h
    simp only [firstMetaOk] at h
    split at h
    · rename_i hc
      rcases Option.some.inj h with h2
      rw [← h2]
      exact hc
    · exact ih v h

theorem metaStep_ok (d : DirInfo) (v : Str) (h : metaStep d = some v) :
    v ≠ [] ∧ ¬(pyIsDigit v = true ∧ 8 ≤ v.length) ∧ isValidVersion v = true := by
  simp only [metaStep] at h
  split at h
  · exact Option.noConfusion h
  · split at h
    · exact Option.noConfusion h
    · exact firstMetaOk_ok _ v h

theorem psCleanStep_ok (f : FileEntry) (v : Str) (h : psCleanStep f = some v) :
    isValidVersion v = true := by
  simp only [psCleanStep] at h
  split at h
  · exact Option.noConfusion h
  · split at h
    · split at h
      · split at h
        · split at h
          · rename_i hval
            rcases Option.some.inj h with h2
            rw [← h2]
            exact hval
          · exact Option.noConfusion h
        · exact Option.noConfusion h
      · exact Option.noConfusion h
    · exact Option.noConfusion h

theorem dropLeadZeroParts_len : ∀ (n : Nat) (l : List Str),
    l.length - n ≤ (dropLeadZeroParts n l).length := by
  intro n
  induction n with
  | zero => intro l; simp [dropLeadZeroParts]
  | succ m ih =>
    intro l
    cases l with
    | nil => simp [dropLeadZeroParts]
    | cons p ps =>
      simp only [dropLeadZeroParts, List.length_cons]
      split
      · have := ih ps
        omega
      · simp only [List.length_cons]
        omega

theorem popZeroTail_len (l : List Str) (h : 2 ≤ l.length) :
    2 ≤ (popZeroTail l).length := by
  simp only [popZeroTail, List.length_reverse]
  have := dropLeadZeroParts_len (l.length - 2) l.reverse
  rw [List.length_reverse] at this
  omega

theorem joinDots_dot (l : List Str) (h : 2 ≤ l.length) : '.' ∈ joinDots l := by
  cases l with
  | nil => simp at h
  | cons p t =>
    cases t with
    | nil => simp at h
    | cons q r =>
      simp only [joinDots]
      exact List.mem_append.mpr (Or.inr (List.mem_cons_self _ _))

theorem getExeVersion_ok (f : FileEntry) (v : Str) (h : getExeVersion f = some v) :
    '.' ∈ v ∨ isValidVersion v = true := by
  simp only [getExeVersion] at h
  split at h
  · rename_i a b c d
    split at h
    · rcases Option.some.inj h with h2
      rw [← h2]
      refine Or.inl (joinDots_dot _ ?_)
      exact popZeroTail_len _ (by simp)
    · exact Or.inr (psCleanStep_ok f v h)
  · exact Or.inr (psCleanStep_ok f v h)

theorem exeStep_ok (d : DirInfo) (v : Str) (h : exeStep d = some v) :
    '.' ∈ v ∨ isValidVersion v = true := by
  simp only [exeStep] at h
  split at h
  · exact Option.noConfusion h
  · exact getExeVersion_ok _ v h

theorem tryTxtFiles_ok (d : DirInfo) : ∀ (ns : List Str) (v : Str),
    tryTxtFiles d ns = some v → isValidVersion v = true := by
  intro ns
  induction ns with
  | nil => intro v h; exact Option.noConfusion h
  | cons n rest ih =>
    intro v h
    simp only [tryTxtFiles] at h
    split at h
    · exact ih v h
    · split at h
      · exact ih v h
      · split at h
        · exact ih v h
        · split at h
          · rename_i hval
            rcases Option.some.inj h with h2
            rw [← h2]
            exact hval
          · exact ih v h

theorem readableCompute_ok (d : DirInfo) (v : Str)
    (h : readableCompute d = some v) (hb : isBuildId v = true) :
    v.head? = some '0' := by
  obtain ⟨hdig, hlen⟩ : pyIsDigit v = true ∧ 8 ≤ v.length := by
    simpa [isBuildId, Bool.and_eq_true] using hb
  simp only [readableCompute] at h
  split at h
  · rename_i hm
    rcases Option.some.inj h with h2
    rw [← h2] at hdig hlen ⊢
    rename_i w
    exact absurd ⟨hdig, hlen⟩ (metaStep_ok d w hm).2.1
  · split at h
    · rename_i hx
      rcases Option.some.inj h with h2
      rw [← h2] at hdig hlen ⊢
      rename_i w
      rcases exeStep_ok d w hx with hdot | hval
      · exfalso
        have := List.all_eq_true.mp
          (by simpa [pyIsDigit, Bool.and_eq_true] using hdig :
            (w.isEmpty = false ∧ w.all isDigitC = true)).2 '.' hdot
        exact absurd this (by decide)
      · exact validDigit_head w hval hdig hlen
    · have hval := tryTxtFiles_ok d _ v h
      exact validDigit_head v hval hdig hlen

/-! ### Claim theorems: readable-version detection never yields a build id -/

/-- C9 (counterexample): an install directory whose only version source is
an executable with PowerShell-reported version string `"00001234"` makes
`detect_readable_version_from_gog_files` return exactly that string, which
is an all-digit string of length 8 — a build id, contradicting the claim. -/
theorem C9_counterexample :
    (detectReadable c9Fs emptyCaches "p".data).1 = some "00001234".data ∧
    isBuildId "00001234".data = true := by
  constructor
  · rfl
  · decide

/-- C9 (amended): the metadata-pattern path never returns a build id
(explicit rejection), and the executable / plain-text fallbacks validate
with `_is_valid_version`, which bounds the numeric value by 9999 — so any
returned build id must begin with `'0'` (8+ digits of value at most 9999,
e.g. `"00001234"`); a build id with a nonzero leading digit is never
returned. -/
theorem C9_readable_head_zero :
    ∀ (fs : Str → Option DirInfo) (p v : Str) (st : Caches) (w : Bool),
    detectReadable fs emptyCaches p = (some v, st, w) →
    isBuildId v = true → v.head? = some '0' := by
  intro fs p v st w h hb
  simp only [detectReadable] at h
  split at h
  · exact Option.noConfusion (congrArg Prod.fst h)
  · split at h
    · exact Option.noConfusion (congrArg Prod.fst h)
    · split at h
      · rename_i u hlk
        simp only [emptyCaches] at hlk
        simp only [lookupKey] at hlk
        exact Option.noConfusion hlk
      · have hr : readableCompute _ = some v := congrArg Prod.fst h
        exact readableCompute_ok _ v hr hb

/-- C9 (witness): the amended claim applied to a concrete directory whose
PowerShell version string is the leading-zero build id `"00009999"`. -/
theorem C9_readable_head_zero_witness :
    ("00009999".data).head? = some '0' :=
  C9_readable_head_zero c9wFs "q".data "00009999".data
    ⟨[], [("q".data, some "00009999".data)]⟩ true (by decide) (by decide)

/-! ### Claim theorems: per-path detection caches -/

/-- C10: both detection functions are idempotent per path: re-running one
on the state its first run produced returns the same result with the state
unchanged and no detection work (the `false` flag: no directory listing,
no metadata-file read); for an existing, nonempty path the result is held
in the respective cache; and a call on a different path leaves this path's
cache entries untouched. -/
theorem C10_cache_idempotent :
    ∀ (fs : Str → Option DirInfo) (st : Caches) (p : Str),
    (detectBuildId fs (detectBuildId fs st p).2.1 p =
      ((detectBuildId fs st p).1, (detectBuildId fs st p).2.1, false)) ∧
    (p ≠ [] → (fs p).isSome = true →
      lookupKey (detectBuildId fs st p).2.1.buildC p =
        some (detectBuildId fs st p).1) ∧
    (detectReadable fs (detectReadable fs st p).2.1 p =
      ((detectReadable fs st p).1, (detectReadable fs st p).2.1, false)) ∧
    (p ≠ [] → (fs p).isSome = true →
      lookupKey (detectReadable fs st p).2.1.verC p =
        some (detectReadable fs st p).1) ∧
    (∀ q, q ≠ p →
      lookupKey (detectBuildId fs st q).2.1.buildC p = lookupKey st.buildC p) ∧
    (∀ q, q ≠ p →
      lookupKey (detectReadable fs st q).2.1.verC p = lookupKey st.verC p) := by
  intro fs st p
  refine ⟨?_, ?_, ?_, ?_, ?_, ?_⟩
  · by_cases hp : p = []
    · simp [detectBuildId, hp]
    · simp only [detectBuildId, if_neg hp]
      cases hfs : fs p with
      | none => simp
      | some d =>
        cases hlk : lookupKey st.buildC p with
        | some u => simp [hlk]
        | none => simp [hlk, lookupKey]
  · intro hp hsome
    simp only [detectBuildId, if_neg hp]
    cases hfs : fs p with
    | none => rw [hfs] at hsome; exact Bool.noConfusion hsome
    | some d =>
      cases hlk : lookupKey st.buildC p with
      | some u => simp [hlk]
      | none => simp [hlk, lookupKey]
  · by_cases hp : p = []
    · simp [detectReadable, hp]
    · simp only [detectReadable, if_neg hp]
      cases hfs : fs p with
      | none => simp
      | some d =>
        cases hlk : lookupKey st.verC p with
        | some u => simp [hlk]
        | none => simp [hlk, lookupKey]
  · intro hp hsome
    simp only [detectReadable, if_neg hp]
    cases hfs : fs p with
    | none => rw [hfs] at hsome; exact Bool.noConfusion hsome
    | some d =>
      cases hlk : lookupKey st.verC p with
      | some u => simp [hlk]
      | none => simp [hlk, lookupKey]
  · intro q hqp
    by_cases hq : q = []
    · simp [detectBuildId, hq]
    · simp only [detectBuildId, if_neg hq]
      cases hfs : fs q with
      | none => simp
      | some d =>
        cases hlk : lookupKey st.buildC q with
        | some u => simp
        | none => simp [lookupKey, hqp]
  · intro q hqp
    by_cases hq : q = []
    · simp [detectReadable, hq]
    · simp only [detectReadable, if_neg hq]
      cases hfs : fs q with
      | none => simp
      | some d =>
        cases hlk : lookupKey st.verC q with
        | some u => simp
        | none => simp [lookupKey, hqp]

/-- C10 (witness): the cached-result clause applied to a concrete
one-directory filesystem, for both detection functions. -/
theorem C10_cache_idempotent_witness :
    lookupKey (detectBuildId c10Fs emptyCaches "w".data).2.1.buildC "w".data =
      some (detectBuildId c10Fs emptyCaches "w".data).1 ∧
    lookupKey (detectReadable c10Fs emptyCaches "w".data).2.1.verC "w".data =
      some (detectReadable c10Fs emptyCaches "w".data).1 :=
  ⟨(C10_cache_idempotent c10Fs emptyCaches "w".data).2.1 (by decide) (by decide),
   (C10_cache_idempotent c10Fs emptyCaches "w".data).2.2.2.1 (by decide) (by decide)⟩

end GogCheck
